import Mathlib

/-!
Shallow embedding of the voice engine of the `osc3-mcp-rust` synthesizer
(`src/lib.rs`): oscillator generator, unison oscillator bank, biquad filter,
ADSR envelope, voice, and the voice-pool event dispatch, together with
theorems settling the specification's claims about them.

Float (`f32`) arithmetic is idealized as exact real arithmetic (`ℝ`); plain
float fields that are only compared or fed to floors are modelled as `ℚ` so
the control flow stays executable.  `u32` counters wrap modulo `2 ^ 32`, and
the Rust saturating float-to-`u32` cast is modelled explicitly.
-/

open scoped Classical

/-- `std::f32::consts::TAU`, idealized. -/
noncomputable def TAU : ℝ := 2 * Real.pi

/-- Rust's `%` on floats: remainder truncated toward zero
(`x - y * trunc (x / y)`), so its sign follows the dividend. -/
noncomputable def rustRem (x y : ℝ) : ℝ :=
  if 0 ≤ x / y then x - y * (⌊x / y⌋ : ℝ) else x - y * (⌈x / y⌉ : ℝ)

inductive Waveform
  | Sine
  | Square
  | Triangle
  | Sawtooth
deriving DecidableEq

inductive FilterMode
  | LowPass
  | HighPass
  | BandPass
  | Notch
deriving DecidableEq

/-- `UnisonOscillator::generate_waveform` from `src/lib.rs`. -/
noncomputable def generate_waveform (waveform : Waveform) (phase : ℝ) : ℝ :=
  match waveform with
  | .Sine => Real.sin phase
  | .Square => if rustRem phase TAU < Real.pi then 1 else -1
  | .Triangle =>
      let normalized_phase := rustRem phase TAU / TAU
      if normalized_phase < 1 / 2 then 4 * normalized_phase - 1
      else 3 - 4 * normalized_phase
  | .Sawtooth => 2 * (rustRem phase TAU / TAU) - 1

theorem TAU_pos : 0 < TAU := by
  unfold TAU; positivity

theorem rustRem_nonneg_of_nonneg {x : ℝ} (hx : 0 ≤ x) :
    0 ≤ rustRem x TAU ∧ rustRem x TAU < TAU := by
  have hT : 0 < TAU := TAU_pos
  have hdiv : 0 ≤ x / TAU := div_nonneg hx hT.le
  have hne : TAU ≠ 0 := hT.ne'
  unfold rustRem
  rw [if_pos hdiv]
  have hfr : x - TAU * (⌊x / TAU⌋ : ℝ) = TAU * Int.fract (x / TAU) := by
    rw [Int.fract]
    field_simp
  rw [hfr]
  constructor
  · exact mul_nonneg hT.le (Int.fract_nonneg _)
  · have := Int.fract_lt_one (x / TAU)
    calc TAU * Int.fract (x / TAU) < TAU * 1 :=
      (mul_lt_mul_left hT).mpr this
    _ = TAU := mul_one _

theorem rustRem_neg_pi :
    rustRem (-Real.pi) TAU = -Real.pi := by
  have hpi : (0 : ℝ) < Real.pi := Real.pi_pos
  have hdiv : -Real.pi / TAU = -(1 / 2) := by
    unfold TAU
    field_simp
    ring
  unfold rustRem
  rw [hdiv]
  rw [if_neg (by norm_num)]
  have hc : ⌈(-(1 / 2) : ℝ)⌉ = 0 := by
    rw [Int.ceil_eq_iff] <;> norm_num
  rw [hc]
  norm_num

/-- C2 counterexample: at the negative phase `-π`, the Triangle waveform
evaluates to `-3`, outside `[-1, 1]` (Rust `%` keeps the dividend's sign, so
`(-π) % TAU = -π` and the normalized phase is `-1/2`). -/
theorem generate_waveform_triangle_neg_pi_below :
    generate_waveform Waveform.Triangle (-Real.pi) = -3 ∧
      generate_waveform Waveform.Triangle (-Real.pi) < -1 := by
  have hpi : (0 : ℝ) < Real.pi := Real.pi_pos
  have hval : generate_waveform Waveform.Triangle (-Real.pi) = -3 := by
    unfold generate_waveform
    simp only [rustRem_neg_pi]
    have hq : -Real.pi / TAU = -(1 / 2) := by
      unfold TAU; field_simp; ring
    rw [hq, if_pos (by norm_num)]
    norm_num
  exact ⟨hval, by rw [hval]; norm_num⟩

/-- C2 (amended): for every waveform and every nonnegative phase,
`generate_waveform` stays in `[-1, 1]`. -/
theorem generate_waveform_bounded (waveform : Waveform) (phase : ℝ)
    (hphase : 0 ≤ phase) :
    -1 ≤ generate_waveform waveform phase ∧ generate_waveform waveform phase ≤ 1 := by
  obtain ⟨hr0, hrT⟩ := rustRem_nonneg_of_nonneg hphase
  have hT : 0 < TAU := TAU_pos
  have ht0 : 0 ≤ rustRem phase TAU / TAU := div_nonneg hr0 hT.le
  have ht1 : rustRem phase TAU / TAU < 1 := (div_lt_one hT).mpr hrT
  cases waveform with
  | Sine =>
      exact ⟨Real.neg_one_le_sin phase, Real.sin_le_one phase⟩
  | Square =>
      simp only [generate_waveform]
      split <;> norm_num
  | Triangle =>
      simp only [generate_waveform]
      split
      · constructor <;> nlinarith
      · constructor <;> nlinarith
  | Sawtooth =>
      simp only [generate_waveform]
      constructor <;> nlinarith

/-- Closed witness for `generate_waveform_bounded` at phase `0`. -/
theorem generate_waveform_bounded_witness :
    -1 ≤ generate_waveform Waveform.Square 0 ∧ generate_waveform Waveform.Square 0 ≤ 1 :=
  generate_waveform_bounded Waveform.Square 0 le_rfl

/-- One unison unit: a phase accumulator and its spread position. -/
structure OscillatorVoice where
  phase : ℝ
  detune_offset : ℝ

/-- The unison oscillator bank: up to `voices.length` phase accumulators, of
which the first `num_voices` are active. -/
structure UnisonOscillator where
  voices : List OscillatorVoice
  num_voices : ℕ

instance : Inhabited OscillatorVoice := ⟨⟨0, 0⟩⟩

/-- The per-index map used to model Rust's indexed `iter_mut` loops. -/
def mapIdxFrom (f : ℕ → α → α) : ℕ → List α → List α
  | _, [] => []
  | i, a :: l => f i a :: mapIdxFrom f (i + 1) l

/-- `UnisonOscillator::new` from `src/lib.rs`: all phases 0, `num_voices = 1`,
detune offsets spread symmetrically from `max_voices`. -/
noncomputable def UnisonOscillator.new (max_voices : ℕ) : UnisonOscillator :=
  { voices := (List.range max_voices).map (fun i =>
      { phase := 0
        detune_offset :=
          if max_voices = 1 then 0
          else ((i : ℝ) - ((max_voices : ℝ) - 1) / 2) / (((max_voices : ℝ) - 1) / 2) })
    num_voices := 1 }

/-- `UnisonOscillator::set_num_voices`: clamp to `[1, capacity]` and recompute
every detune offset from the new count. -/
noncomputable def UnisonOscillator.set_num_voices
    (o : UnisonOscillator) (num_voices : ℕ) : UnisonOscillator :=
  let nv := max (min num_voices o.voices.length) 1
  { voices := mapIdxFrom (fun i v =>
      { v with detune_offset :=
          if nv = 1 then 0
          else ((i : ℝ) - ((nv : ℝ) - 1) / 2) / (((nv : ℝ) - 1) / 2) }) 0 o.voices
    num_voices := nv }

/-- `UnisonOscillator::process`.  Returns the updated bank and the output
sample.  Out-of-range list accesses (impossible in the states the synth
builds) default to the zero oscillator voice. -/
noncomputable def UnisonOscillator.process (o : UnisonOscillator) (waveform : Waveform)
    (base_freq detune_cents phase_offset blend volume sample_rate : ℝ) :
    UnisonOscillator × ℝ :=
  if o.num_voices = 1 then
    let phase_incr := base_freq / sample_rate * TAU
    let v0 := o.voices.headI
    let current_phase := v0.phase + phase_offset * TAU
    let sample := generate_waveform waveform current_phase
    let p := v0.phase + phase_incr
    let p' := if p ≥ TAU then p - TAU else p
    ({ o with voices := o.voices.set 0 { v0 with phase := p' } }, sample * volume)
  else
    let samples := (List.range o.num_voices).map (fun i =>
      generate_waveform waveform ((o.voices.getD i default).phase + phase_offset * TAU))
    let unison_sum := samples.sum
    let mono_sample := samples.headI
    let voices' := mapIdxFrom (fun i v =>
      if i < o.num_voices then
        let detune_factor := (2 : ℝ) ^ (v.detune_offset * detune_cents / 1200)
        let phase_incr := base_freq * detune_factor / sample_rate * TAU
        let p := v.phase + phase_incr
        { v with phase := if p ≥ TAU then p - TAU else p }
      else v) 0 o.voices
    let unison_sample := unison_sum / (o.num_voices : ℝ)
    let final_sample := mono_sample * (1 - blend) + unison_sample * blend
    ({ o with voices := voices' }, final_sample * volume)

/-- `UnisonOscillator::reset`: zero every phase. -/
def UnisonOscillator.reset (o : UnisonOscillator) : UnisonOscillator :=
  { o with voices := o.voices.map (fun v => { v with phase := 0 }) }

/-- Reachable bank states: fresh from `new`, closed under `set_num_voices`,
`process` and `reset`. -/
inductive UnisonOscillator.Reachable : UnisonOscillator → Prop
  | new (max_voices : ℕ) : Reachable (UnisonOscillator.new max_voices)
  | set_num_voices {o : UnisonOscillator} (n : ℕ) :
      Reachable o → Reachable (o.set_num_voices n)
  | process {o : UnisonOscillator} (w : Waveform) (bf dc po bl vol sr : ℝ) :
      Reachable o → Reachable (o.process w bf dc po bl vol sr).1
  | reset {o : UnisonOscillator} : Reachable o → Reachable o.reset

theorem mapIdxFrom_length (f : ℕ → α → α) :
    ∀ (j : ℕ) (l : List α), (mapIdxFrom f j l).length = l.length := by
  intro j l
  induction l generalizing j with
  | nil => rfl
  | cons a l ih => simp [mapIdxFrom, ih]

theorem mapIdxFrom_getD (f : ℕ → α → α) (d : α) :
    ∀ (l : List α) (j i : ℕ), i < l.length →
      (mapIdxFrom f j l).getD i d = f (j + i) (l.getD i d) := by
  intro l
  induction l with
  | nil => intro j i h; simp at h
  | cons a l ih =>
      intro j i h
      cases i with
      | zero => simp [mapIdxFrom]
      | succ i =>
          simp only [mapIdxFrom, List.getD_cons_succ]
          rw [ih (j + 1) i (by simpa using Nat.lt_of_succ_lt_succ h)]
          ring_nf

theorem headI_set_zero {l : List α} [Inhabited α] (a : α) (h : l ≠ []) :
    (l.set 0 a).headI = a := by
  cases l with
  | nil => exact absurd rfl h
  | cons b l => rfl

/-- Formalization of the specification's words for the degenerate single-voice
path (spec §4.2 step 1): advance the single phase by
`base_freq / sample_rate * 2π`, wrap at `2π`, and output
`generate(waveform, phase + phase_offset * 2π) * volume`. -/
noncomputable def specSingleOscillator (waveform : Waveform)
    (phase base_freq phase_offset volume sample_rate : ℝ) : ℝ × ℝ :=
  (generate_waveform waveform (phase + phase_offset * TAU) * volume,
   let p := phase + base_freq / sample_rate * TAU
   if p ≥ TAU then p - TAU else p)

/-- C7: with `num_voices = 1`, `UnisonOscillator.process` is exactly the
stateless generator evaluated on the stored phase plus the phase offset,
scaled by `volume`, with no detune factor; the stored phase then advances by
`base_freq / sample_rate * 2π` and wraps at `2π` — i.e. the degenerate path
refines the spec's single-oscillator description. -/
theorem unison_single_voice_refines (o : UnisonOscillator) (w : Waveform)
    (bf dc po bl vol sr : ℝ) (h1 : o.num_voices = 1) (h2 : o.voices ≠ []) :
    (o.process w bf dc po bl vol sr).2 =
        generate_waveform w (o.voices.headI.phase + po * TAU) * vol
    ∧ (o.process w bf dc po bl vol sr).2 =
        (specSingleOscillator w o.voices.headI.phase bf po vol sr).1
    ∧ (o.process w bf dc po bl vol sr).1.voices.headI.phase =
        (specSingleOscillator w o.voices.headI.phase bf po vol sr).2 := by
  refine ⟨?_, ?_, ?_⟩
  · simp only [UnisonOscillator.process, if_pos h1]
  · simp only [UnisonOscillator.process, if_pos h1, specSingleOscillator]
  · simp only [UnisonOscillator.process, if_pos h1, specSingleOscillator]
    rw [headI_set_zero _ h2]

/-- Closed witness for `unison_single_voice_refines` on a fresh 1-voice bank. -/
theorem unison_single_voice_refines_witness :
    ((UnisonOscillator.new 1).process Waveform.Sine 440 0 0 0 1 44100).2 =
        generate_waveform Waveform.Sine
          ((UnisonOscillator.new 1).voices.headI.phase + 0 * TAU) * 1
    ∧ ((UnisonOscillator.new 1).process Waveform.Sine 440 0 0 0 1 44100).2 =
        (specSingleOscillator Waveform.Sine
          (UnisonOscillator.new 1).voices.headI.phase 440 0 1 44100).1
    ∧ ((UnisonOscillator.new 1).process Waveform.Sine 440 0 0 0 1 44100).1.voices.headI.phase =
        (specSingleOscillator Waveform.Sine
          (UnisonOscillator.new 1).voices.headI.phase 440 0 1 44100).2 :=
  unison_single_voice_refines (UnisonOscillator.new 1) Waveform.Sine 440 0 0 0 1 44100
    rfl (List.length_pos.mp (by decide))

/-- C5 counterexample: the freshly constructed bank `new 2` already has
`num_voices = 1`, yet the voice used for output (index 0) carries
`detune_offset = -1`, not `0` — `new` computes the offsets from `max_voices`,
not from `num_voices`. -/
theorem unison_new_two_offset_counterexample :
    (UnisonOscillator.new 2).num_voices = 1
    ∧ ((UnisonOscillator.new 2).voices.headI).detune_offset = -1
    ∧ ((UnisonOscillator.new 2).voices.headI).detune_offset ≠ 0 := by
  refine ⟨rfl, ?_, ?_⟩ <;>
    · simp [UnisonOscillator.new, List.range_succ]
      norm_num

/-- C5 (amended): whenever a `set_num_voices` call leaves the bank with
`num_voices = 1`, every stored `detune_offset` (in particular that of the
output voice, index 0) is exactly `0`. -/
theorem set_num_voices_one_zero_offsets (o : UnisonOscillator) (n i : ℕ)
    (h1 : (o.set_num_voices n).num_voices = 1)
    (h2 : i < (o.set_num_voices n).voices.length) :
    (((o.set_num_voices n).voices.getD i default)).detune_offset = 0 := by
  simp only [UnisonOscillator.set_num_voices] at h1 h2 ⊢
  rw [mapIdxFrom_getD _ _ _ _ _ (by simpa [mapIdxFrom_length] using h2)]
  simp [h1]

/-- Closed witness for `set_num_voices_one_zero_offsets`. -/
theorem set_num_voices_one_zero_offsets_witness :
    ((((UnisonOscillator.new 2).set_num_voices 1).voices.getD 0 default)).detune_offset = 0 :=
  set_num_voices_one_zero_offsets (UnisonOscillator.new 2) 1 0
    rfl (by decide)

inductive EnvelopeStage
  | Idle
  | Attack
  | Decay
  | Sustain
  | Release
deriving DecidableEq

/-- ADSR envelope state (`Envelope` in `src/lib.rs`).  Levels are idealized
floats (`ℝ`); the sample rate and stage durations live in `ℚ` so the stage
machine stays executable; `samples_elapsed` is a wrapping `u32`. -/
structure Envelope where
  stage : EnvelopeStage
  current_level : ℝ
  sample_rate : ℚ
  samples_elapsed : ℕ
  release_start_level : ℝ

/-- Rust's saturating `as u32` cast applied to a nonnegative float. -/
def toU32trunc (x : ℚ) : ℕ := min (Int.toNat ⌊x⌋) (2 ^ 32 - 1)

def Envelope.new (sample_rate : ℚ) : Envelope :=
  { stage := .Idle
    current_level := 0
    sample_rate := sample_rate
    samples_elapsed := 0
    release_start_level := 0 }

def Envelope.set_sample_rate (e : Envelope) (sample_rate : ℚ) : Envelope :=
  { e with sample_rate := sample_rate }

def Envelope.note_on (e : Envelope) : Envelope :=
  { e with stage := .Attack, samples_elapsed := 0 }

def Envelope.note_off (e : Envelope) : Envelope :=
  if e.stage ≠ .Idle then
    { e with release_start_level := e.current_level
             stage := .Release
             samples_elapsed := 0 }
  else e

/-- `Envelope::process`: one sample step.  Returns the updated envelope; the
value the Rust function returns is the updated `current_level`. -/
noncomputable def Envelope.process (e : Envelope)
    (attack decay sustain release : ℚ) : Envelope :=
  let stepped :=
    match e.stage with
    | .Idle => { e with current_level := 0 }
    | .Attack =>
        let attack_samples := toU32trunc (max (attack * e.sample_rate) 1)
        if e.samples_elapsed ≥ attack_samples then
          { e with current_level := 1, stage := .Decay, samples_elapsed := 0 }
        else
          let progress : ℝ := (e.samples_elapsed : ℝ) / (attack_samples : ℝ)
          { e with current_level := 1 - Real.exp (-5 * progress) }
    | .Decay =>
        let decay_samples := toU32trunc (max (decay * e.sample_rate) 1)
        if e.samples_elapsed ≥ decay_samples then
          { e with current_level := (sustain : ℝ), stage := .Sustain, samples_elapsed := 0 }
        else
          let progress : ℝ := (e.samples_elapsed : ℝ) / (decay_samples : ℝ)
          { e with current_level :=
              (sustain : ℝ) + (1 - (sustain : ℝ)) * Real.exp (-5 * progress) }
    | .Sustain => { e with current_level := (sustain : ℝ) }
    | .Release =>
        let release_samples := toU32trunc (max (release * e.sample_rate) 1)
        if e.samples_elapsed ≥ release_samples then
          { e with current_level := 0, stage := .Idle, samples_elapsed := 0 }
        else
          let progress : ℝ := (e.samples_elapsed : ℝ) / (release_samples : ℝ)
          { e with current_level := e.release_start_level * Real.exp (-5 * progress) }
  { stepped with samples_elapsed := (stepped.samples_elapsed + 1) % 2 ^ 32 }

def Envelope.is_active (e : Envelope) : Prop := e.stage ≠ .Idle

instance (e : Envelope) : Decidable e.is_active := by
  unfold Envelope.is_active; infer_instance

/-- `n` successive `process` calls with fixed parameters. -/
noncomputable def Envelope.processN (e : Envelope) (a d s r : ℚ) : ℕ → Envelope
  | 0 => e
  | n + 1 => (e.processN a d s r n).process a d s r

/-- Envelope states reachable from `new`, closed under `note_on`, `note_off`
and `process` with nonnegative parameters. -/
inductive Envelope.Reachable : Envelope → Prop
  | new (sample_rate : ℚ) : Reachable (Envelope.new sample_rate)
  | note_on {e : Envelope} : Reachable e → Reachable e.note_on
  | note_off {e : Envelope} : Reachable e → Reachable e.note_off
  | process {e : Envelope} (a d s r : ℚ) (ha : 0 ≤ a) (hd : 0 ≤ d)
      (hs : 0 ≤ s) (hr : 0 ≤ r) :
      Reachable e → Reachable (e.process a d s r)

/-- C9: in every reachable envelope state, `stage = Idle` forces
`current_level = 0`. -/
theorem envelope_idle_level_zero (e : Envelope) (h : e.Reachable)
    (hidle : e.stage = .Idle) : e.current_level = 0 := by
  induction h with
  | new sample_rate => rfl
  | note_on h ih =>
      simp only [Envelope.note_on] at hidle
      cases hidle
  | note_off h ih =>
      rename_i e'
      by_cases hs : e'.stage ≠ EnvelopeStage.Idle
      · simp only [Envelope.note_off, if_pos hs] at hidle
        cases hidle
      · push_neg at hs
        simp only [Envelope.note_off, hs] at hidle ⊢
        simp only [ne_eq, not_true_eq_false, if_false]
        exact ih hs
  | process a d s r ha hd hs hr h ih =>
      rename_i e'
      simp only [Envelope.process] at hidle ⊢
      cases hstage : e'.stage with
      | Idle => simp [hstage]
      | Attack =>
          simp only [hstage] at hidle ⊢
          split at hidle <;> simp_all
      | Decay =>
          simp only [hstage] at hidle ⊢
          split at hidle <;> simp_all
      | Sustain =>
          simp only [hstage] at hidle
          cases hidle
      | Release =>
          simp only [hstage] at hidle ⊢
          split at hidle <;> simp_all

/-- Closed witness for `envelope_idle_level_zero` at the initial state. -/
theorem envelope_idle_level_zero_witness :
    (Envelope.new 44100).current_level = 0 :=
  envelope_idle_level_zero (Envelope.new 44100) (Envelope.Reachable.new 44100) rfl

theorem toU32trunc_max_one_bounds (x : ℚ) :
    1 ≤ toU32trunc (max x 1) ∧ toU32trunc (max x 1) ≤ 2 ^ 32 - 1 := by
  unfold toU32trunc
  refine ⟨le_min ?_ (by norm_num), min_le_right _ _⟩
  have h1 : (1 : ℤ) ≤ ⌊max x 1⌋ := by
    rw [Int.le_floor]
    exact_mod_cast le_max_right x 1
  omega

theorem envelope_attack_progress (sr a d s r : ℚ) :
    ∀ k, k ≤ toU32trunc (max (a * sr) 1) →
      ((Envelope.new sr).note_on.processN a d s r k).stage = .Attack ∧
      ((Envelope.new sr).note_on.processN a d s r k).samples_elapsed = k ∧
      ((Envelope.new sr).note_on.processN a d s r k).sample_rate = sr := by
  intro k
  induction k with
  | zero => intro _; exact ⟨rfl, rfl, rfl⟩
  | succ k ih =>
      intro hk
      obtain ⟨h1, h2, h3⟩ := ih (Nat.le_of_succ_le hk)
      have hbound := (toU32trunc_max_one_bounds (a * sr)).2
      simp only [Envelope.processN, Envelope.process, h1, h2, h3]
      have hlt : ¬ k ≥ toU32trunc (max (a * sr) 1) :=
        Nat.not_le.mpr (Nat.lt_of_succ_le hk)
      rw [if_neg hlt]
      refine ⟨rfl, ?_, rfl⟩
      show (k + 1) % 2 ^ 32 = k + 1
      exact Nat.mod_eq_of_lt (by omega)

/-- C3 (amended): after `note_on` from the initial state and exactly
`N + 1` calls to `process` with fixed parameters, where
`N = trunc (max (attack · sample_rate) 1)` is the attack duration the code
computes, the level is exactly `1` and the stage is `Decay`.  (After only
`N` calls the envelope is still in `Attack`.) -/
theorem envelope_attack_completion (sr a d s r : ℚ) :
    ((Envelope.new sr).note_on.processN a d s r
        (toU32trunc (max (a * sr) 1) + 1)).stage = .Decay ∧
    ((Envelope.new sr).note_on.processN a d s r
        (toU32trunc (max (a * sr) 1) + 1)).current_level = 1 := by
  obtain ⟨h1, h2, h3⟩ := envelope_attack_progress sr a d s r
    (toU32trunc (max (a * sr) 1)) le_rfl
  simp only [Envelope.processN, Envelope.process, h1, h2, h3]
  rw [if_pos le_rfl]
  exact ⟨rfl, rfl⟩

/-- C3 counterexample: with `attack = 1` and `sample_rate = 1` we have
`attack · sample_rate = 1 ≥ 1` and `N = ⌈attack · sample_rate⌉ = 1`, but after
exactly `N = 1` call to `process` following `note_on` the stage is still
`Attack` and the returned level is `0` (not within any reasonable epsilon of
`1`): completion happens one call later. -/
theorem envelope_attack_ceil_counterexample :
    (⌈(1 : ℚ) * 1⌉ : ℤ) = 1 ∧
    ((Envelope.new 1).note_on.processN 1 1 (7 / 10) 1 1).stage = .Attack ∧
    ((Envelope.new 1).note_on.processN 1 1 (7 / 10) 1 1).current_level = 0 := by
  have hA : toU32trunc (max ((1 : ℚ) * 1) 1) = 1 := by
    unfold toU32trunc
    norm_num
  refine ⟨by norm_num, ?_, ?_⟩ <;>
  · simp only [Envelope.processN, Envelope.process, Envelope.note_on, Envelope.new]
    simp only [hA]
    norm_num [Real.exp_zero]

/-- 2-pole IIR filter state (`BiquadFilter` in `src/lib.rs`). -/
structure BiquadFilter where
  b0 : ℝ
  b1 : ℝ
  b2 : ℝ
  a1 : ℝ
  a2 : ℝ
  x1 : ℝ
  x2 : ℝ
  y1 : ℝ
  y2 : ℝ
  sample_rate : ℚ

def BiquadFilter.new (sample_rate : ℚ) : BiquadFilter :=
  { b0 := 1, b1 := 0, b2 := 0, a1 := 0, a2 := 0
    x1 := 0, x2 := 0, y1 := 0, y2 := 0
    sample_rate := sample_rate }

/-- Rust `f32::clamp` (for `lo ≤ hi`). -/
def clampQ (x lo hi : ℚ) : ℚ := if x < lo then lo else if x > hi then hi else x

/-- The cutoff actually used by `set_coefficients`:
`cutoff.clamp(20.0, self.sample_rate * 0.49)`. -/
def BiquadFilter.clampedCutoff (f : BiquadFilter) (cutoff : ℚ) : ℚ :=
  clampQ cutoff 20 (f.sample_rate * (49 / 100))

/-- The Q factor used by `set_coefficients`:
`(resonance * 10.0 + 0.5).max(0.1)`. -/
def biquadQ (resonance : ℚ) : ℚ := max (resonance * 10 + 1 / 2) (1 / 10)

/-- `BiquadFilter::set_coefficients` (RBJ biquad cookbook forms). -/
noncomputable def BiquadFilter.set_coefficients (f : BiquadFilter)
    (mode : FilterMode) (cutoff resonance : ℚ) : BiquadFilter :=
  let cutoff := f.clampedCutoff cutoff
  let q := biquadQ resonance
  let omega : ℝ := 2 * Real.pi * (cutoff : ℝ) / (f.sample_rate : ℝ)
  let cos_omega := Real.cos omega
  let sin_omega := Real.sin omega
  let alpha := sin_omega / (2 * (q : ℝ))
  match mode with
  | .LowPass =>
      let norm := 1 + alpha
      { f with b0 := (1 - cos_omega) / 2 / norm
               b1 := (1 - cos_omega) / norm
               b2 := (1 - cos_omega) / 2 / norm
               a1 := -2 * cos_omega / norm
               a2 := (1 - alpha) / norm }
  | .HighPass =>
      let norm := 1 + alpha
      { f with b0 := (1 + cos_omega) / 2 / norm
               b1 := -(1 + cos_omega) / norm
               b2 := (1 + cos_omega) / 2 / norm
               a1 := -2 * cos_omega / norm
               a2 := (1 - alpha) / norm }
  | .BandPass =>
      let norm := 1 + alpha
      { f with b0 := alpha / norm
               b1 := 0
               b2 := -alpha / norm
               a1 := -2 * cos_omega / norm
               a2 := (1 - alpha) / norm }
  | .Notch =>
      let norm := 1 + alpha
      { f with b0 := 1 / norm
               b1 := -2 * cos_omega / norm
               b2 := 1 / norm
               a1 := -2 * cos_omega / norm
               a2 := (1 - alpha) / norm }

/-- `BiquadFilter::process`: drive/soft-clip stage then the 2-pole IIR
difference equation, updating the 2-sample histories. -/
noncomputable def BiquadFilter.process (f : BiquadFilter)
    (input drive : ℝ) : BiquadFilter × ℝ :=
  let driven_input :=
    if drive > 1 then Real.tanh (input * drive) / Real.tanh drive
    else input * drive
  let output := f.b0 * driven_input + f.b1 * f.x1 + f.b2 * f.x2
    - f.a1 * f.y1 - f.a2 * f.y2
  ({ f with x2 := f.x1, x1 := driven_input, y2 := f.y1, y1 := output }, output)

def BiquadFilter.reset (f : BiquadFilter) : BiquadFilter :=
  { f with x1 := 0, x2 := 0, y1 := 0, y2 := 0 }

/-- C8: for `resonance ∈ [0, 1]` (and a sample rate making the clamp range
nonempty), the cutoff used by `set_coefficients` lands in
`[20, 0.49 · sample_rate]`, the `0.1` floor never binds so the Q factor is
exactly `resonance * 10 + 0.5 ≥ 0.5`, and the denominator `2 Q` of
`alpha = sin ω / (2 Q)` is nonzero. -/
theorem set_coefficients_clamp_and_q (f : BiquadFilter) (cutoff resonance : ℚ)
    (hres0 : 0 ≤ resonance) (hres1 : resonance ≤ 1)
    (hsr : 20 ≤ f.sample_rate * (49 / 100)) :
    20 ≤ f.clampedCutoff cutoff
    ∧ f.clampedCutoff cutoff ≤ f.sample_rate * (49 / 100)
    ∧ biquadQ resonance = resonance * 10 + 1 / 2
    ∧ 1 / 2 ≤ biquadQ resonance
    ∧ (2 * (biquadQ resonance : ℝ)) ≠ 0 := by
  have hq : biquadQ resonance = resonance * 10 + 1 / 2 := by
    unfold biquadQ
    rw [max_eq_left]
    nlinarith
  have hqhalf : 1 / 2 ≤ biquadQ resonance := by rw [hq]; nlinarith
  refine ⟨?_, ?_, hq, hqhalf, ?_⟩
  · unfold BiquadFilter.clampedCutoff clampQ
    split
    · exact le_rfl
    · split
      · exact hsr
      · linarith
  · unfold BiquadFilter.clampedCutoff clampQ
    split
    · exact hsr
    · split
      · exact le_rfl
      · linarith
  · have h0 : (0 : ℚ) < biquadQ resonance :=
      lt_of_lt_of_le (by norm_num) hqhalf
    have h0r : (0 : ℝ) < (biquadQ resonance : ℝ) := by exact_mod_cast h0
    have h2 : (0 : ℝ) < 2 * (biquadQ resonance : ℝ) := by linarith
    exact h2.ne'

/-- Closed witness for `set_coefficients_clamp_and_q`. -/
theorem set_coefficients_clamp_and_q_witness :
    20 ≤ (BiquadFilter.new 44100).clampedCutoff 50000
    ∧ (BiquadFilter.new 44100).clampedCutoff 50000 ≤ (BiquadFilter.new 44100).sample_rate * (49 / 100)
    ∧ biquadQ 1 = 1 * 10 + 1 / 2
    ∧ 1 / 2 ≤ biquadQ 1
    ∧ (2 * (biquadQ 1 : ℝ)) ≠ 0 :=
  set_coefficients_clamp_and_q (BiquadFilter.new 44100) 50000 1
    (by norm_num) le_rfl (by norm_num [BiquadFilter.new])

/-- One polyphonic voice (`Voice` in `src/lib.rs`).  `velocity` is only ever
compared and multiplied, so it is kept in `ℚ`; `note` is the `u8` MIDI note. -/
structure Voice where
  active : Bool
  note : ℕ
  velocity : ℚ
  base_frequency : ℝ
  osc1 : UnisonOscillator
  osc2 : UnisonOscillator
  osc3 : UnisonOscillator
  filter : BiquadFilter
  envelope : Envelope

noncomputable def Voice.new (sample_rate : ℚ) : Voice :=
  { active := false
    note := 0
    velocity := 0
    base_frequency := 440
    osc1 := UnisonOscillator.new 8
    osc2 := UnisonOscillator.new 8
    osc3 := UnisonOscillator.new 8
    filter := BiquadFilter.new sample_rate
    envelope := Envelope.new sample_rate }

/-- `Voice::note_on`: activate, store identity, derive the equal-tempered
base frequency, reset oscillators and filter, retrigger the envelope. -/
noncomputable def Voice.note_on (v : Voice) (note : ℕ) (velocity : ℚ) : Voice :=
  { v with active := true
           note := note
           velocity := velocity
           base_frequency := 440 * (2 : ℝ) ^ (((note : ℝ) - 69) / 12)
           osc1 := v.osc1.reset
           osc2 := v.osc2.reset
           osc3 := v.osc3.reset
           filter := v.filter.reset
           envelope := v.envelope.note_on }

/-- `Voice::note_off`: forward to the envelope only. -/
def Voice.note_off (v : Voice) : Voice :=
  { v with envelope := v.envelope.note_off }

def Voice.is_active (v : Voice) : Prop := v.envelope.is_active

/-- The note events the synth's event loop dispatches on. -/
inductive NoteEventM
  | NoteOn (note : ℕ) (velocity : ℚ)
  | NoteOff (note : ℕ)
  | Choke

/-- Index of the first voice with `active == false`
(`self.voices.iter_mut().find(|v| !v.active)`). -/
def findInactiveIdx : List Voice → Option ℕ
  | [] => none
  | v :: rest =>
      if v.active then (findInactiveIdx rest).map (· + 1) else some 0

/-- Index of the first minimum of a list of keys — the documented semantics
of Rust's `Iterator::min_by_key` over an enumerated iterator (ties go to the
first, i.e. earliest, element). -/
def firstMinIdx : List ℕ → Option ℕ
  | [] => none
  | k :: ks =>
      match firstMinIdx ks with
      | none => some 0
      | some j => if ks.getD j 0 < k then some (j + 1) else some 0

/-- The stealing comparator's keys: each voice's `envelope.samples_elapsed`. -/
def elapsedKeys (pool : List Voice) : List ℕ :=
  pool.map (fun v => v.envelope.samples_elapsed)

/-- `min_by_key(|(_, v)| v.envelope.samples_elapsed)` over the enumerated
pool. -/
def minElapsedIdx (pool : List Voice) : Option ℕ :=
  firstMinIdx (elapsedKeys pool)

/-- In-place update of the element at an index (Rust `&mut` access). -/
def listModify (f : α → α) : ℕ → List α → List α
  | _, [] => []
  | 0, a :: l => f a :: l
  | n + 1, a :: l => a :: listModify f n l

/-- The `NoteOn` arm of the event loop in `SineSynth::process`: ignore zero
velocity; otherwise take the first inactive voice, or steal the
`min_by_key(samples_elapsed)` one. -/
noncomputable def noteOnPool (pool : List Voice) (note : ℕ) (velocity : ℚ) :
    List Voice :=
  if velocity > 0 then
    match findInactiveIdx pool with
    | some i => listModify (fun v => v.note_on note velocity) i pool
    | none =>
        match minElapsedIdx pool with
        | some i => listModify (fun v => v.note_on note velocity) i pool
        | none => pool
  else pool

/-- The `NoteOff` arm: `note_off` every voice with the matching note that is
also `active`. -/
def noteOffPool (pool : List Voice) (note : ℕ) : List Voice :=
  pool.map (fun v => if v.note = note ∧ v.active = true then v.note_off else v)

/-- The `Choke` arm: `note_off` every voice. -/
def chokePool (pool : List Voice) : List Voice :=
  pool.map Voice.note_off

/-- Dispatch of one event in `SineSynth::process`. -/
noncomputable def processEvent (pool : List Voice) : NoteEventM → List Voice
  | .NoteOn note velocity => noteOnPool pool note velocity
  | .NoteOff note => noteOffPool pool note
  | .Choke => chokePool pool

/-- C10: a `NoteOn` event with velocity exactly `0` leaves the whole voice
pool unchanged — no allocation, no steal, no `note_on`/`note_off`. -/
theorem noteOn_zero_velocity_ignored (pool : List Voice) (note : ℕ) :
    processEvent pool (NoteEventM.NoteOn note 0) = pool := by
  simp [processEvent, noteOnPool]

/-- A voice mid-Attack, used to exhibit the Choke behaviour. -/
noncomputable def voiceAttackC1 : Voice :=
  { Voice.new 1 with
      active := true
      note := 60
      envelope := { Envelope.new 1 with
                      stage := .Attack
                      current_level := 1 / 2
                      samples_elapsed := 3 } }

/-- C1 counterexample: Choke on a pool holding one active mid-Attack voice
just sends an ordinary `note_off` — afterwards the voice's `active` flag is
still `true` and its envelope entered `Release`; nothing was
force-deactivated or bypassed. -/
theorem choke_no_force_deactivate_counterexample :
    processEvent [voiceAttackC1] NoteEventM.Choke = [voiceAttackC1.note_off]
    ∧ (voiceAttackC1.note_off).active = true
    ∧ (voiceAttackC1.note_off).envelope.stage = EnvelopeStage.Release := by
  refine ⟨rfl, rfl, ?_⟩
  simp [Voice.note_off, Envelope.note_off, voiceAttackC1]

/-- C1 (amended): a Choke event sends every voice an ordinary `note_off`:
the voice at each index is replaced by its `note_off`, which leaves `active`
untouched and moves any non-Idle envelope to `Release` (no immediate
deactivation, no envelope bypass). -/
theorem choke_sends_note_off (pool : List Voice) (i : ℕ) (v : Voice)
    (h : pool.get? i = some v) :
    (processEvent pool NoteEventM.Choke).get? i = some v.note_off
    ∧ (v.note_off).active = v.active
    ∧ (v.envelope.stage ≠ EnvelopeStage.Idle →
        (v.note_off).envelope.stage = EnvelopeStage.Release) := by
  refine ⟨?_, rfl, ?_⟩
  · have h' : pool[i]? = some v := by rw [← List.get?_eq_getElem?]; exact h
    simp only [processEvent, chokePool, List.get?_map, h, Option.map_some']
  · intro hs
    simp [Voice.note_off, Envelope.note_off, if_pos hs]

/-- Closed witness for `choke_sends_note_off`. -/
theorem choke_sends_note_off_witness :
    (processEvent [voiceAttackC1] NoteEventM.Choke).get? 0 = some voiceAttackC1.note_off
    ∧ (voiceAttackC1.note_off).active = voiceAttackC1.active
    ∧ (voiceAttackC1.envelope.stage ≠ EnvelopeStage.Idle →
        (voiceAttackC1.note_off).envelope.stage = EnvelopeStage.Release) :=
  choke_sends_note_off [voiceAttackC1] 0 voiceAttackC1 rfl

/-- An inactive voice whose envelope is still releasing (as left by the
plugin's `reset`, which clears `active` without touching the envelope). -/
noncomputable def voiceReleasedC6 : Voice :=
  { Voice.new 1 with
      active := false
      note := 60
      envelope := { Envelope.new 1 with
                      stage := .Release
                      current_level := 1 / 2
                      samples_elapsed := 5
                      release_start_level := 1 } }

/-- C6 counterexample: a NoteOff for note 60 leaves this matching-note voice
completely untouched because its `active` flag is false — yet sending it
`note_off`, as the claim demands regardless of per-voice state, would
observably change it (its `samples_elapsed` would reset to 0). -/
theorem noteOff_inactive_skipped_counterexample :
    processEvent [voiceReleasedC6] (NoteEventM.NoteOff 60) = [voiceReleasedC6]
    ∧ voiceReleasedC6.note = 60
    ∧ (voiceReleasedC6.note_off).envelope.samples_elapsed ≠
        voiceReleasedC6.envelope.samples_elapsed := by
  refine ⟨?_, rfl, ?_⟩
  · simp [processEvent, noteOffPool, voiceReleasedC6]
  · simp [Voice.note_off, Envelope.note_off, voiceReleasedC6]

/-- C6 (amended): on NoteOff, exactly the voices whose stored note matches
and whose `active` flag is `true` are sent `note_off`; every other voice
(including matching-note voices with `active == false`) is untouched. -/
theorem noteOff_matching_active (pool : List Voice) (note i : ℕ) (v : Voice)
    (h : pool.get? i = some v) :
    (processEvent pool (NoteEventM.NoteOff note)).get? i =
      some (if v.note = note ∧ v.active = true then v.note_off else v) := by
  simp only [processEvent, noteOffPool, List.get?_map, h, Option.map_some']

/-- An active voice holding note 60, in Sustain. -/
noncomputable def voiceActiveC6 : Voice :=
  { Voice.new 1 with
      active := true
      note := 60
      envelope := { Envelope.new 1 with stage := .Sustain, samples_elapsed := 7 } }

/-- Closed witness for `noteOff_matching_active`. -/
theorem noteOff_matching_active_witness :
    (processEvent [voiceActiveC6] (NoteEventM.NoteOff 60)).get? 0 =
      some (if voiceActiveC6.note = 60 ∧ voiceActiveC6.active = true
            then voiceActiveC6.note_off else voiceActiveC6) :=
  noteOff_matching_active [voiceActiveC6] 60 0 voiceActiveC6 rfl

theorem getD_of_get? : ∀ (l : List α) (i : ℕ) (a d : α),
    l.get? i = some a → l.getD i d = a := by
  intro l
  induction l with
  | nil => intro i a d h; simp at h
  | cons b l ih =>
      intro i a d h
      cases i with
      | zero => simp at h; simp [h]
      | succ i => simp at h; simpa using ih i a d (by simpa using h)

theorem get?_isSome_of_lt : ∀ (l : List α) (i : ℕ), i < l.length →
    ∃ a, l.get? i = some a := by
  intro l
  induction l with
  | nil => intro i h; simp at h
  | cons b l ih =>
      intro i h
      cases i with
      | zero => exact ⟨b, rfl⟩
      | succ i => simpa using ih i (by simpa using h)

theorem get?_lt_length : ∀ (l : List α) (i : ℕ) (a : α),
    l.get? i = some a → i < l.length := by
  intro l
  induction l with
  | nil => intro i a h; simp at h
  | cons b l ih =>
      intro i a h
      cases i with
      | zero => simp
      | succ i =>
          have := ih i a (by simpa using h)
          simpa using Nat.succ_lt_succ this

theorem firstMinIdx_eq_none : ∀ (l : List ℕ), firstMinIdx l = none ↔ l = [] := by
  intro l
  cases l with
  | nil => simp [firstMinIdx]
  | cons k ks =>
      simp only [firstMinIdx]
      constructor
      · intro h
        cases hm : firstMinIdx ks with
        | none => rw [hm] at h; cases h
        | some j => rw [hm] at h; dsimp at h; split at h <;> cases h
      · intro h; cases h

/-- `firstMinIdx` returns an in-range index whose key is a minimum of the
list, strictly below every earlier key (first-minimum semantics). -/
theorem firstMinIdx_spec : ∀ (l : List ℕ) (j : ℕ), firstMinIdx l = some j →
    j < l.length
    ∧ (∀ i, i < l.length → l.getD j 0 ≤ l.getD i 0)
    ∧ (∀ i, i < j → l.getD j 0 < l.getD i 0) := by
  intro l
  induction l with
  | nil => intro j h; cases h
  | cons k ks ih =>
      intro j h
      simp only [firstMinIdx] at h
      cases hm : firstMinIdx ks with
      | none =>
          rw [hm] at h
          cases h
          have hks : ks = [] := (firstMinIdx_eq_none ks).mp hm
          subst hks
          refine ⟨by simp, ?_, by omega⟩
          intro i hi
          have hi0 : i = 0 := by
            simp only [List.length_cons, List.length_nil] at hi
            omega
          subst hi0
          exact le_rfl
      | some j' =>
          rw [hm] at h
          obtain ⟨hlen, hle, hlt⟩ := ih j' hm
          dsimp at h
          by_cases hcmp : ks.getD j' 0 < k
          · rw [if_pos hcmp] at h
            cases h
            refine ⟨by simpa using Nat.succ_lt_succ hlen, ?_, ?_⟩
            · intro i hi
              cases i with
              | zero => simpa using hcmp.le
              | succ i =>
                  simpa using hle i (by simpa using hi)
            · intro i hi
              cases i with
              | zero => simpa using hcmp
              | succ i =>
                  simpa using hlt i (by omega)
          · rw [if_neg hcmp] at h
            cases h
            refine ⟨by simp, ?_, by omega⟩
            intro i hi
            cases i with
            | zero => simp
            | succ i =>
                simp only [List.getD_cons_zero, List.getD_cons_succ]
                exact le_trans (Nat.le_of_not_lt hcmp) (hle i (by simpa using hi))

theorem findInactiveIdx_none_of_all_active : ∀ (pool : List Voice),
    (∀ v ∈ pool, v.active = true) → findInactiveIdx pool = none := by
  intro pool h
  induction pool with
  | nil => rfl
  | cons v rest ih =>
      simp only [findInactiveIdx]
      rw [if_pos (by simp [h v (List.mem_cons_self v rest)])]
      rw [ih (fun w hw => h w (List.mem_cons_of_mem v hw))]
      rfl

theorem elapsedKeys_getD (pool : List Voice) (i : ℕ) (v : Voice)
    (h : pool.get? i = some v) :
    (elapsedKeys pool).getD i 0 = v.envelope.samples_elapsed := by
  apply getD_of_get?
  unfold elapsedKeys
  rw [List.get?_map, h]
  rfl

/-- C4: on NoteOn with positive velocity into a pool where every voice is
active, the dispatched update calls `note_on` on exactly the voice at the
index `min_by_key` selects — an index whose `envelope.samples_elapsed` is
minimal over the pool, and strictly smaller than every earlier voice's
(first-in-pool-order tie-break). -/
theorem steal_picks_first_min (pool : List Voice) (note : ℕ) (velocity : ℚ)
    (i : ℕ) (hact : ∀ v ∈ pool, v.active = true) (hvel : 0 < velocity)
    (hmin : minElapsedIdx pool = some i) :
    processEvent pool (NoteEventM.NoteOn note velocity) =
      listModify (fun v => v.note_on note velocity) i pool
    ∧ ∃ vi, pool.get? i = some vi
        ∧ (∀ j vj, pool.get? j = some vj →
            vi.envelope.samples_elapsed ≤ vj.envelope.samples_elapsed)
        ∧ (∀ j vj, j < i → pool.get? j = some vj →
            vi.envelope.samples_elapsed < vj.envelope.samples_elapsed) := by
  obtain ⟨hilen, hle, hlt⟩ := firstMinIdx_spec (elapsedKeys pool) i hmin
  have hkeylen : (elapsedKeys pool).length = pool.length := by
    unfold elapsedKeys; exact List.length_map _ _
  have hipool : i < pool.length := by rw [← hkeylen]; exact hilen
  obtain ⟨vi, hvi⟩ := get?_isSome_of_lt pool i hipool
  have hkeyi : (elapsedKeys pool).getD i 0 = vi.envelope.samples_elapsed :=
    elapsedKeys_getD pool i vi hvi
  constructor
  · simp only [processEvent, noteOnPool,
      if_pos (show velocity > 0 from hvel),
      findInactiveIdx_none_of_all_active pool hact, hmin]
  · refine ⟨vi, hvi, ?_, ?_⟩
    · intro j vj hvj
      have hj : j < pool.length := get?_lt_length pool j vj hvj
      have := hle j (by rw [hkeylen]; exact hj)
      rw [hkeyi, elapsedKeys_getD pool j vj hvj] at this
      exact this
    · intro j vj hj hvj
      have := hlt j hj
      rw [hkeyi, elapsedKeys_getD pool j vj hvj] at this
      exact this

/-- A fully active two-voice pool whose second voice most recently entered
its envelope stage. -/
noncomputable def poolStealC4 : List Voice :=
  [ { Voice.new 1 with
        active := true
        note := 10
        envelope := { Envelope.new 1 with stage := .Sustain, samples_elapsed := 5 } },
    { Voice.new 1 with
        active := true
        note := 11
        envelope := { Envelope.new 1 with stage := .Attack, samples_elapsed := 3 } } ]

/-- Closed witness for `steal_picks_first_min`: index 1 (elapsed 3 < 5) is
stolen. -/
theorem steal_picks_first_min_witness :
    processEvent poolStealC4 (NoteEventM.NoteOn 60 1) =
      listModify (fun v => v.note_on 60 1) 1 poolStealC4
    ∧ ∃ vi, poolStealC4.get? 1 = some vi
        ∧ (∀ j vj, poolStealC4.get? j = some vj →
            vi.envelope.samples_elapsed ≤ vj.envelope.samples_elapsed)
        ∧ (∀ j vj, j < 1 → poolStealC4.get? j = some vj →
            vi.envelope.samples_elapsed < vj.envelope.samples_elapsed) :=
  steal_picks_first_min poolStealC4 60 1 1
    (by
      intro v hv
      simp only [poolStealC4, List.mem_cons, List.mem_singleton] at hv
      rcases hv with h | h | h
      · rw [h]
      · rw [h]
      · cases h)
    (by norm_num)
    rfl
